import Mathlib

/-!
Verification development for the selective yarn.lock upgrade tool
(source: a single TypeScript module exporting upgradeLock and its helpers).

The TypeScript functions are shallowly embedded as Lean functions.  External
collaborators that are not part of the repository (yarnpkg structUtils,
semver, micromatch, the syml codec and the external resolver process) are
modelled as an abstract record of functions, ExtLib.  Fallible operations
(functions that throw in JavaScript) return Except or Option.  Snapshots
(JavaScript objects keyed by lockfile descriptors) are association lists in
insertion order, matching the for-in iteration order of string-keyed
JavaScript objects.
-/

/-- Result of yarnpkg structUtils.parseDescriptor: an optional scope, a bare
name, and the range part of the descriptor. -/
structure Descriptor where
  scope : Option String
  name : String
  range : String
deriving Repr, DecidableEq

/-- Result of yarnpkg structUtils.parseRange; only the selector field is used
by the source. -/
structure ParsedRange where
  selector : String
deriving Repr, DecidableEq

/-- One yarn.lock entry (the YarnEntry type of the source). -/
structure YarnEntry where
  version : String
  resolution : String
  dependencies : List (String × String) := []
  checksum : Option String := none
  languageName : Option String := none
  linkType : Option String := none
deriving Repr, DecidableEq

/-- A lockfile snapshot: the parsed mapping from raw descriptor-set keys to
entries, in insertion order. -/
abbrev Snapshot := List (String × YarnEntry)

/-- The package index (pkgToDescriptor in the source): canonical package name
to the original lockfile keys resolving to that name, in insertion order. -/
abbrev Index := List (String × List String)

/-- Log events corresponding to the console.log and console.warn calls of
upgradeSelectedPackages.  downgrade carries the package name, the current
version and the original version it is reverted to. -/
inductive LogEvent where
  | downgrade (name fromVersion toVersion : String)
  | ignoring (key : String)
  | noMatch (key : String)
  | newPackage (key : String)
deriving Repr, DecidableEq

/-- External collaborators of the source module, as opaque-to-us functions.
A none result models a thrown JavaScript exception (for the two yarnpkg
parsers and the syml parser); validRange returning none models the null
return of semver.validRange for an invalid range. -/
structure ExtLib where
  parseDescriptor : String → Option Descriptor
  parseRange : String → Option ParsedRange
  validRange : String → Option String
  satisfies : String → String → Bool
  isMatch : String → String → Bool
  parseSyml : String → Option Snapshot
  stringifySyml : Snapshot → String

/-- JavaScript truthiness of a value that is either null/undefined (none) or
a string: null and the empty string are falsy. -/
def jsTruthy : Option String → Bool
  | none => false
  | some s => !(s == "")

/-- Structural model of JavaScript String.prototype.split with a comma
separator: split("") gives [""], and separators delimit possibly empty
fields. -/
def splitCommaAux : List Char → List Char → List String
  | acc, [] => [String.mk acc.reverse]
  | acc, c :: cs =>
    if c = ',' then String.mk acc.reverse :: splitCommaAux [] cs
    else splitCommaAux (c :: acc) cs

/-- Split a comma-joined descriptor-set key into raw descriptor strings. -/
def splitComma (s : String) : List String :=
  splitCommaAux [] s.data

/-- Structural model of JavaScript String.prototype.trim (whitespace removal
at both ends). -/
def trimStr (s : String) : String :=
  String.mk (((s.data.dropWhile Char.isWhitespace).reverse.dropWhile
    Char.isWhitespace).reverse)

/-- Whether a lockfile key is a reserved metadata key, i.e. starts with two
underscores (pkg.startsWith two underscores in the source). -/
def isMetaKey (k : String) : Bool :=
  match k.data with
  | '_' :: '_' :: _ => true
  | _ => false

/-- The fixed two-line banner prepended to every rewritten yarn.lock
(yarnLockHeader in the source: the two comment lines joined, then one more
newline). -/
def yarnLockHeader : String :=
  "# This file is generated by running \"yarn install\" inside your project.\n"
    ++ "# Manual changes might be lost - proceed with caution!\n" ++ "\n"

/-- extractNameFromDescriptor of the source: parse the first comma segment of
a resolution (trimmed) as a descriptor and return the scoped or bare name.
The scope test mirrors JavaScript truthiness of descriptor.scope. -/
def extractNameFromDescriptor (E : ExtLib) (name : String) : Except String String :=
  match E.parseDescriptor (trimStr ((splitComma name).headD "")) with
  | none => .error "Invalid descriptor"
  | some d =>
    .ok (match d.scope with
      | some s => if s == "" then d.name else "@" ++ s ++ "/" ++ d.name
      | none => d.name)

/-- Append key k to the list indexed under name, creating the binding at the
end if the name is new (the Map has/get-push/set logic of upgradeLock). -/
def insertIndex : Index → String → String → Index
  | [], name, k => [(name, [k])]
  | (n, ks) :: rest, name, k =>
    if n = name then (n, ks ++ [k]) :: rest
    else (n, ks) :: insertIndex rest name k

/-- The index-building loop of upgradeLock: skip metadata keys, extract each
entry name from its resolution (propagating a parse failure), and record the
key under the name. -/
def buildIndexAux (E : ExtLib) : Index → Snapshot → Except String Index
  | acc, [] => .ok acc
  | acc, (k, e) :: rest =>
    if isMetaKey k then buildIndexAux E acc rest
    else
      match extractNameFromDescriptor E e.resolution with
      | .error msg => .error msg
      | .ok name => buildIndexAux E (insertIndex acc name k) rest

/-- Build pkgToDescriptor from the original snapshot. -/
def buildIndex (E : ExtLib) (pkgs : Snapshot) : Except String Index :=
  buildIndexAux E [] pkgs

/-- The keys an index associates with a name (empty when absent). -/
def getKeys (idx : Index) (name : String) : List String :=
  (idx.lookup name).getD []

/-- The inner semver check of upgradeSelectedPackages, applied to one range
selector: not semver.validRange(selector) or semver.satisfies(version,
selector), with JavaScript truthiness on the validRange result. -/
def satCheck (E : ExtLib) (version selector : String) : Bool :=
  !(jsTruthy (E.validRange selector)) || E.satisfies version selector

/-- The body of the every-callback: parse one raw descriptor (trimmed) and
its range, then run the semver check against the original version.  A parse
failure is a thrown exception, i.e. an error. -/
def descOk (E : ExtLib) (origVersion : String) (desc : String) : Except String Bool :=
  match E.parseDescriptor (trimStr desc) with
  | none => .error "Invalid descriptor"
  | some pd =>
    match E.parseRange pd.range with
    | none => .error "Invalid range"
    | some r => .ok (satCheck E origVersion r.selector)

/-- Array.prototype.every over the split descriptors: stop at the first false
element; an exception in the callback propagates. -/
def allDescsOk (E : ExtLib) (origVersion : String) : List String → Except String Bool
  | [] => .ok true
  | d :: rest =>
    match descOk E origVersion d with
    | .error msg => .error msg
    | .ok false => .ok false
    | .ok true => allDescsOk E origVersion rest

/-- Decidable summary of one candidate original key: it has an entry in the
original snapshot whose version passes all descriptor checks. -/
def candidateOk (E : ExtLib) (pkgs : Snapshot) (descs : List String) (d : String) : Bool :=
  match pkgs.lookup d with
  | none => false
  | some oe =>
    match allDescsOk E oe.version descs with
    | .ok true => true
    | _ => false

/-- The candidate loop of upgradeSelectedPackages: walk the original keys
indexed under the name and return the first one whose original entry
satisfies every descriptor of the current key, together with that entry.
A missing original entry cannot happen when the index was built from the
same snapshot; it is modelled as an error (the JavaScript code would fail
on an undefined entry). -/
def findOrig (E : ExtLib) (pkgs : Snapshot) (descs : List String) :
    List String → Except String (Option (String × YarnEntry))
  | [] => .ok none
  | d :: rest =>
    match pkgs.lookup d with
    | none => .error "missing original entry"
    | some origPkg =>
      match allDescsOk E origPkg.version descs with
      | .error msg => .error msg
      | .ok true => .ok (some (d, origPkg))
      | .ok false => findOrig E pkgs descs rest

/-- Result of processing one non-metadata entry of the current snapshot:
the (possibly replaced) entry, whether a downgrade was recorded for it, and
the log events it produced. -/
structure EntryResult where
  entry : YarnEntry
  changed : Bool
  log : List LogEvent
deriving Repr, DecidableEq

/-- The body of the for-in loop of upgradeSelectedPackages for one
non-metadata key: dispatch on index membership of the extracted name, then
on the pattern match, then on the first satisfying original key and its
version. -/
def processEntry (E : ExtLib) (pkgToDescriptor : Index) (packages : String)
    (pkgs : Snapshot) (pkg : String) (cur : YarnEntry) : Except String EntryResult :=
  match extractNameFromDescriptor E cur.resolution with
  | .error msg => .error msg
  | .ok name =>
    match pkgToDescriptor.lookup name with
    | none => .ok ⟨cur, false, [.newPackage pkg]⟩
    | some origDescriptors =>
      if E.isMatch name packages then
        .ok ⟨cur, false, [.ignoring pkg]⟩
      else
        match findOrig E pkgs (splitComma pkg) origDescriptors with
        | .error msg => .error msg
        | .ok none => .ok ⟨cur, false, [.noMatch pkg]⟩
        | .ok (some (_, origPkg)) =>
          if origPkg.version = cur.version then .ok ⟨cur, false, []⟩
          else .ok ⟨origPkg, true, [.downgrade name cur.version origPkg.version]⟩

/-- Result of one full diff pass over the current snapshot. -/
structure PassResult where
  hasChange : Bool
  pkgs : Snapshot
  log : List LogEvent
deriving Repr, DecidableEq

/-- The for-in loop of upgradeSelectedPackages over the freshly loaded
current snapshot: metadata keys are passed through untouched, other keys are
processed in order, the hasChange flag accumulates, and the first thrown
error aborts the whole pass. -/
def diffEntries (E : ExtLib) (pkgToDescriptor : Index) (packages : String)
    (pkgs : Snapshot) : Snapshot → Except String PassResult
  | [] => .ok ⟨false, [], []⟩
  | (pkg, cur) :: rest =>
    if isMetaKey pkg then
      match diffEntries E pkgToDescriptor packages pkgs rest with
      | .error msg => .error msg
      | .ok r => .ok ⟨r.hasChange, (pkg, cur) :: r.pkgs, r.log⟩
    else
      match processEntry E pkgToDescriptor packages pkgs pkg cur with
      | .error msg => .error msg
      | .ok er =>
        match diffEntries E pkgToDescriptor packages pkgs rest with
        | .error msg => .error msg
        | .ok r => .ok ⟨er.changed || r.hasChange, (pkg, er.entry) :: r.pkgs, er.log ++ r.log⟩

/-- Result of upgradeSelectedPackages at the file level: the pass result and
the text written back to the lockfile, if any. -/
structure FilePassResult where
  hasChange : Bool
  pkgs : Snapshot
  log : List LogEvent
  written : Option String
deriving Repr, DecidableEq

/-- upgradeSelectedPackages of the source: reload the lockfile, run the diff
pass, and persist the header plus the serialized mapping exactly when some
version was downgraded. -/
def upgradeSelectedPackages (E : ExtLib) (lockFileText : String)
    (pkgToDescriptor : Index) (packages : String) (pkgs : Snapshot) :
    Except String FilePassResult :=
  match E.parseSyml lockFileText with
  | none => .error "Parse error"
  | some newPkgs =>
    match diffEntries E pkgToDescriptor packages pkgs newPkgs with
    | .error msg => .error msg
    | .ok r =>
      .ok ⟨r.hasChange, r.pkgs, r.log,
        if r.hasChange then some (yarnLockHeader ++ E.stringifySyml r.pkgs) else none⟩

/-- The retry budget of the convergence loop (the counter initialised to 5 in
upgradeLock). -/
def MAX_RETRIES : Nat := 5

/-- The do-while loop of upgradeLock: run the external mutable-mode resolve
(install, indexed by invocation count), then the diff pass; continue while
the pass downgraded something and the counter is still positive, with the
counter decremented only when the pass reported a change (short-circuit of
the while condition).  Returns the final lockfile text, the number of
mutable-mode resolver invocations, and the last pass result. -/
def upgradeLoop (E : ExtLib) (install : Nat → String → String)
    (pkgToDescriptor : Index) (packages : String) (pkgs : Snapshot) :
    Nat → Nat → String → Except String (String × Nat × FilePassResult)
  | 0, i, file =>
    match upgradeSelectedPackages E (install i file) pkgToDescriptor packages pkgs with
    | .error msg => .error msg
    | .ok r =>
      .ok (match r.written with | some s => s | none => install i file, i + 1, r)
  | c + 1, i, file =>
    match upgradeSelectedPackages E (install i file) pkgToDescriptor packages pkgs with
    | .error msg => .error msg
    | .ok r =>
      if r.hasChange then
        upgradeLoop E install pkgToDescriptor packages pkgs c (i + 1)
          (match r.written with | some s => s | none => install i file)
      else .ok (match r.written with | some s => s | none => install i file, i + 1, r)

/-- The final state of one upgradeLock run: the lockfile text handed to the
final immutable-mode resolve, how many mutable-mode resolves ran, the last
diff pass, and whether the immutable-mode stability check accepted the final
file. -/
structure UpgradeResult where
  finalFile : String
  mutableInstalls : Nat
  lastPass : FilePassResult
  stable : Bool
deriving Repr, DecidableEq

/-- upgradeLock of the source: load the original snapshot, build the package
index, run the bounded resolve-diff-rewrite loop, then submit the final file
to the immutable-mode stability check. -/
def upgradeLock (E : ExtLib) (install : Nat → String → String)
    (immutableOk : String → Bool) (packages : String) (initialFile : String) :
    Except String UpgradeResult :=
  match E.parseSyml initialFile with
  | none => .error "Parse error"
  | some pkgs =>
    match buildIndex E pkgs with
    | .error msg => .error msg
    | .ok pkgToDescriptor =>
      match upgradeLoop E install pkgToDescriptor packages pkgs MAX_RETRIES 0 initialFile with
      | .error msg => .error msg
      | .ok (file, n, r) => .ok ⟨file, n, r, immutableOk file⟩

/-- The lockfile key a log event refers to (none for a downgrade line, which
is keyed by package name instead). -/
def logKey : LogEvent → Option String
  | .downgrade _ _ _ => none
  | .ignoring k => some k
  | .noMatch k => some k
  | .newPackage k => some k

/-- The canonical name of an entry, when its resolution parses. -/
def nameOf (E : ExtLib) (e : YarnEntry) : Option String :=
  (extractNameFromDescriptor E e.resolution).toOption

/-- The non-metadata keys of a snapshot whose entry resolves to the given
name, in snapshot order: the list the package index associates with that
name. -/
def keysFor (E : ExtLib) (pkgs : Snapshot) (name : String) : List String :=
  (pkgs.filter (fun p => !isMetaKey p.1 && (nameOf E p.2 == some name))).map Prod.fst

/-! ### Concrete test fixtures

A small executable instantiation of the external collaborators, used to
evaluate the embedded functions on concrete lockfiles.  The mini parsers
below agree with the documented behaviour of yarnpkg structUtils and
node-semver on every input they are applied to in this file; scoped
packages and protocol-less ranges outside that set are not modelled. -/

/-- Split a character list at the first occurrence of a separator. -/
def miniSplitAt (c : Char) : List Char → Option (List Char × List Char)
  | [] => none
  | x :: xs =>
    if x = c then some ([], xs)
    else (miniSplitAt c xs).map (fun p => (x :: p.1, p.2))

/-- Stub of yarnpkg structUtils.parseDescriptor for unscoped descriptors:
name and range split at the first at-sign; an empty name, an empty range
after an at-sign, or a slash in the name is rejected (yarnpkg throws on
those), and a descriptor without a range gets the range unknown. -/
def miniParseDescriptor (s : String) : Option Descriptor :=
  match miniSplitAt '@' s.data with
  | none =>
    if s.data.isEmpty || s.data.contains '/' then none
    else some ⟨none, s, "unknown"⟩
  | some (n, r) =>
    if n.isEmpty || n.contains '/' || r.isEmpty then none
    else some ⟨none, String.mk n, String.mk r⟩

/-- Stub of yarnpkg structUtils.parseRange: strip an npm protocol when
present, otherwise the whole range is the selector. -/
def miniParseRange (s : String) : Option ParsedRange :=
  match s.data with
  | 'n' :: 'p' :: 'm' :: ':' :: rest => some ⟨String.mk rest⟩
  | _ => some ⟨s⟩

/-- The version-range pairs this fixture declares satisfied, mirroring
node-semver on these concrete pairs. -/
def satTable : List (String × String) :=
  [("2.0.0", "^2.0.0"), ("3.0.0", "^3.0.0"), ("1.5.0", "^1.0.0"), ("1.5.0", "^1.4.0")]

/-- Stub of semver.satisfies by table lookup. -/
def miniSatisfies (v r : String) : Bool := satTable.contains (v, r)

/-- Stub of semver.validRange on the caret ranges exercised here: every such
range is valid, and the normalized result is truthy. -/
def miniValidRange (s : String) : Option String :=
  if s = "" then some "*" else some s

/-- Metadata entry of the fixture lockfiles. -/
def metaE : YarnEntry := { version := "8", resolution := "" }

/-- Package a at its original version. -/
def aE1 : YarnEntry := { version := "1.0.0", resolution := "a@npm:1.0.0" }

/-- Package a after the resolver bumped it. -/
def aE2 : YarnEntry := { version := "1.1.0", resolution := "a@npm:1.1.0" }

/-- Package b at its original version. -/
def bE1 : YarnEntry := { version := "2.0.0", resolution := "b@npm:2.0.0", checksum := some "c1" }

/-- Package b after the resolver bumped it. -/
def bE2 : YarnEntry := { version := "2.1.0", resolution := "b@npm:2.1.0", checksum := some "c2" }

/-- Package c, newly introduced by the resolver. -/
def cE : YarnEntry := { version := "3.0.0", resolution := "c@npm:3.0.0" }

/-- Original snapshot of the main fixture. -/
def origW : Snapshot :=
  [("__metadata", metaE), ("a@npm:^1.0.0", aE1), ("b@npm:^2.0.0", bE1)]

/-- Current snapshot after the first resolve: a and b bumped, c added. -/
def curW : Snapshot :=
  [("__metadata", metaE), ("a@npm:^1.0.0", aE2), ("b@npm:^2.0.0", bE2), ("c@npm:^3.0.0", cE)]

/-- Expected stable snapshot: a kept at its bump, b reverted, c kept. -/
def stableW : Snapshot :=
  [("__metadata", metaE), ("a@npm:^1.0.0", aE2), ("b@npm:^2.0.0", bE1), ("c@npm:^3.0.0", cE)]

/-- The package index of the original main fixture snapshot. -/
def idxW : Index := [("a", ["a@npm:^1.0.0"]), ("b", ["b@npm:^2.0.0"])]

/-- Lockfile text produced by the rewrite of the main fixture. -/
def lock2text : String := yarnLockHeader ++ "serializedW"

/-- External collaborators for the main fixture. -/
def extW : ExtLib := {
  parseDescriptor := miniParseDescriptor
  parseRange := miniParseRange
  validRange := miniValidRange
  satisfies := miniSatisfies
  isMatch := fun name pattern => name == pattern
  parseSyml := fun s =>
    if s = "lock0" then some origW
    else if s = "lock1" then some curW
    else if s = lock2text then some stableW
    else none
  stringifySyml := fun m => if m = stableW then "serializedW" else "otherW" }

/-- Resolver of the main fixture: bump on the first file, idempotent after. -/
def installW : Nat → String → String := fun _ f => if f = "lock0" then "lock1" else f

/-- Immutable-mode check that accepts every file. -/
def immutW : String → Bool := fun _ => true

/-- The first diff pass of the main fixture. -/
def rW1 : PassResult :=
  ⟨true, stableW,
    [.ignoring "a@npm:^1.0.0", .downgrade "b" "2.1.0" "2.0.0", .newPackage "c@npm:^3.0.0"]⟩

/-- The second (stable) diff pass of the main fixture, at the file level. -/
def frW2 : FilePassResult :=
  ⟨false, stableW, [.ignoring "a@npm:^1.0.0", .newPackage "c@npm:^3.0.0"], none⟩

/-- The engine result of the main fixture. -/
def resW : UpgradeResult := ⟨lock2text, 2, frW2, true⟩

/-- The first diff pass of the main fixture at the file level. -/
def frW1 : FilePassResult :=
  ⟨true, stableW,
    [.ignoring "a@npm:^1.0.0", .downgrade "b" "2.1.0" "2.0.0", .newPackage "c@npm:^3.0.0"],
    some lock2text⟩

/-- The package index of the stable main fixture snapshot. -/
def idx2W : Index :=
  [("a", ["a@npm:^1.0.0"]), ("b", ["b@npm:^2.0.0"]), ("c", ["c@npm:^3.0.0"])]

/-- Rerun diff pass of the stable main fixture snapshot against itself. -/
def rW3 : PassResult := ⟨false, stableW, [.ignoring "a@npm:^1.0.0"]⟩

/-- Rerun diff pass of the stable main fixture at the file level. -/
def frW3 : FilePassResult := ⟨false, stableW, [.ignoring "a@npm:^1.0.0"], none⟩

/-- Entry with a resolution that yarnpkg cannot decompose. -/
def badE : YarnEntry := { version := "9.9.9", resolution := "a/b" }

/-- Entry following the malformed one, itself well-formed. -/
def yE : YarnEntry := { version := "9.0.0", resolution := "y@npm:9.0.0" }

/-- Current snapshot whose first entry has an undecomposable resolution. -/
def curBad : Snapshot := [("x@npm:^1.0.0", badE), ("y@npm:^9.0.0", yE)]

/-- Package c resolved at 1.5.0 (first descriptor group). -/
def c15 : YarnEntry := { version := "1.5.0", resolution := "c@npm:1.5.0" }

/-- Package c resolved at 1.4.0 (second descriptor group). -/
def c14 : YarnEntry := { version := "1.4.0", resolution := "c@npm:1.4.0" }

/-- Stable lockfile with two entries for the one out-of-pattern name c. -/
def cur6 : Snapshot :=
  [("__metadata", metaE), ("c@npm:^1.0.0", c15), ("c@npm:^1.4.0", c14)]

/-- External collaborators for the rerun fixture. -/
def ext6 : ExtLib := { extW with
  parseSyml := fun s =>
    if s = "F0" then some [("__metadata", metaE)]
    else if s = "F1" then some cur6
    else none }

/-- Resolver of the rerun fixture: introduces c on the first file, idempotent
after. -/
def install6 : Nat → String → String := fun _ f => if f = "F0" then "F1" else f

/-- The index the rerun builds from cur6. -/
def idx6 : Index := [("c", ["c@npm:^1.0.0", "c@npm:^1.4.0"])]

/-- Engine pass result of the first run of the rerun fixture. -/
def fr6 : FilePassResult :=
  ⟨false, cur6, [.newPackage "c@npm:^1.0.0", .newPackage "c@npm:^1.4.0"], none⟩

/-- Engine result of the first run of the rerun fixture. -/
def res6 : UpgradeResult := ⟨"F1", 1, fr6, true⟩

/-- The first rerun diff pass of the rerun fixture: the second entry of c is
reverted to the entry of the first key. -/
def r6 : PassResult :=
  ⟨true, [("__metadata", metaE), ("c@npm:^1.0.0", c15), ("c@npm:^1.4.0", c15)],
    [.downgrade "c" "1.4.0" "1.5.0"]⟩

/-- Original snapshot of the adversarial-resolver fixture. -/
def b4orig : Snapshot := [("b@npm:^2.0.0", bE1)]

/-- Snapshot the adversarial resolver always produces. -/
def b4cur : Snapshot := [("b@npm:^2.0.0", bE2)]

/-- Rewritten lockfile text of the adversarial-resolver fixture. -/
def lock4W : String := yarnLockHeader ++ "serialized4"

/-- External collaborators for the adversarial-resolver fixture. -/
def ext4 : ExtLib := { extW with
  parseSyml := fun s =>
    if s = "lock4" then some b4orig
    else if s = "G" then some b4cur
    else none
  stringifySyml := fun _ => "serialized4" }

/-- Resolver that reintroduces the out-of-pattern bump on every call. -/
def install4 : Nat → String → String := fun _ _ => "G"

/-- Immutable-mode check that rejects every file (the drift is real). -/
def immut4 : String → Bool := fun _ => false

/-- Diff pass result of every iteration of the adversarial fixture. -/
def fr4 : FilePassResult :=
  ⟨true, [("b@npm:^2.0.0", bE1)], [.downgrade "b" "2.1.0" "2.0.0"], some lock4W⟩

/-- Engine result of the adversarial fixture: the full retry budget is used
and the stability check fails. -/
def res4 : UpgradeResult := ⟨lock4W, 6, fr4, false⟩

/-- External collaborators for the constraint-satisfier contract fixture:
the empty range and a marker string are the invalid ranges, nothing
satisfies anything. -/
def ext3 : ExtLib := {
  parseDescriptor := fun _ => none
  parseRange := fun _ => none
  validRange := fun s => if s = "" ∨ s = "###" then none else some s
  satisfies := fun _ _ => false
  isMatch := fun _ _ => false
  parseSyml := fun _ => none
  stringifySyml := fun _ => "" }

/-- Syntactic validity of a range in the contract fixture. -/
def ValidR3 : String → Prop := fun s => ¬(s = "" ∨ s = "###")

/-- Standard range satisfaction in the contract fixture. -/
def StdSat3 : String → String → Prop := fun _ _ => False

/-! ### Association-list helper lemmas -/

theorem lookup_mem {β : Type} {l : List (String × β)} {k : String} {v : β}
    (h : l.lookup k = some v) : (k, v) ∈ l := by
  induction l with
  | nil => simp [List.lookup] at h
  | cons p rest ih =>
    obtain ⟨a, b⟩ := p
    rw [List.lookup_cons] at h
    by_cases hk : k = a
    · subst hk
      rw [beq_self_eq_true] at h
      cases h
      exact List.mem_cons_self _ _
    · have hb : (k == a) = false := by simpa using hk
      rw [hb] at h
      exact List.mem_cons_of_mem _ (ih h)

theorem lookup_of_mem_nodup {β : Type} {l : List (String × β)} {k : String} {v : β}
    (hnd : (l.map Prod.fst).Nodup) (h : (k, v) ∈ l) : l.lookup k = some v := by
  induction l with
  | nil => simp at h
  | cons p rest ih =>
    obtain ⟨a, b⟩ := p
    simp only [List.map_cons, List.nodup_cons] at hnd
    rw [List.lookup_cons]
    rcases List.mem_cons.mp h with h1 | h2
    · cases h1
      simp
    · have hka : k ≠ a := by
        rintro rfl
        exact hnd.1 (List.mem_map_of_mem Prod.fst h2)
      have hb : (k == a) = false := by simpa using hka
      rw [hb]
      exact ih hnd.2 h2

/-! ### Case analysis of one entry of the diff pass -/

theorem findOrig_lookup {E : ExtLib} {pkgs : Snapshot} {descs ds : List String}
    {d : String} {origPkg : YarnEntry}
    (h : findOrig E pkgs descs ds = .ok (some (d, origPkg))) :
    pkgs.lookup d = some origPkg := by
  induction ds with
  | nil => simp [findOrig] at h
  | cons d0 rest ih =>
    unfold findOrig at h
    split at h
    · exact Except.noConfusion h
    next origPkg0 hl =>
      split at h
      · exact Except.noConfusion h
      · have hh : d0 = d ∧ origPkg0 = origPkg := by simpa using h
        rcases hh with ⟨rfl, rfl⟩
        exact hl
      · exact ih h

theorem processEntry_cases {E : ExtLib} {idx : Index} {packages : String}
    {pkgs : Snapshot} {pkg : String} {cur : YarnEntry} {er : EntryResult}
    (h : processEntry E idx packages pkgs pkg cur = .ok er) :
    (∃ name, extractNameFromDescriptor E cur.resolution = .ok name) ∧
    ((er.entry = cur ∧ er.changed = false ∧ ∀ ev ∈ er.log, logKey ev = some pkg) ∨
     (∃ name ds d origPkg,
       extractNameFromDescriptor E cur.resolution = .ok name ∧
       idx.lookup name = some ds ∧
       E.isMatch name packages = false ∧
       pkgs.lookup d = some origPkg ∧
       findOrig E pkgs (splitComma pkg) ds = .ok (some (d, origPkg)) ∧
       origPkg.version ≠ cur.version ∧
       er = ⟨origPkg, true, [.downgrade name cur.version origPkg.version]⟩)) := by
  unfold processEntry at h
  split at h
  · exact absurd h (by simp)
  next name hname =>
    refine ⟨⟨name, hname⟩, ?_⟩
    split at h
    · cases h
      exact Or.inl ⟨rfl, rfl, by simp [logKey]⟩
    next ds hds =>
      split at h
      next hm =>
        cases h
        exact Or.inl ⟨rfl, rfl, by simp [logKey]⟩
      next hm =>
        split at h
        · exact absurd h (by simp)
        next hfind =>
          cases h
          exact Or.inl ⟨rfl, rfl, by simp [logKey]⟩
        next d origPkg hfind =>
          split at h
          next hv =>
            cases h
            exact Or.inl ⟨rfl, rfl, by simp [logKey]⟩
          next hv =>
            cases h
            refine Or.inr ⟨name, ds, d, origPkg, hname, hds, by simpa using hm, ?_, hfind, hv, rfl⟩
            exact findOrig_lookup hfind

theorem processEntry_changed_iff {E : ExtLib} {idx : Index} {packages : String}
    {pkgs : Snapshot} {pkg : String} {cur : YarnEntry} {er : EntryResult}
    (h : processEntry E idx packages pkgs pkg cur = .ok er) :
    er.changed = true ↔ ∃ n a b, LogEvent.downgrade n a b ∈ er.log := by
  rcases (processEntry_cases h).2 with ⟨_, hch, hlog⟩ |
    ⟨name, ds, d, origPkg, _, _, _, _, _, _, hEq⟩
  · rw [hch]
    constructor
    · intro hc; exact absurd hc (by simp)
    · rintro ⟨n, a, b, hmem⟩
      have hk := hlog _ hmem
      simp [logKey] at hk
  · subst hEq
    constructor
    · intro _; exact ⟨name, cur.version, origPkg.version, by simp⟩
    · intro _; rfl

theorem processEntry_log_keys {E : ExtLib} {idx : Index} {packages : String}
    {pkgs : Snapshot} {pkg : String} {cur : YarnEntry} {er : EntryResult}
    (h : processEntry E idx packages pkgs pkg cur = .ok er) :
    ∀ ev ∈ er.log, ∀ kk, logKey ev = some kk → kk = pkg := by
  rcases (processEntry_cases h).2 with ⟨_, _, hlog⟩ |
    ⟨name, ds, d, origPkg, _, _, _, _, _, _, hEq⟩
  · intro ev hev kk hkk
    have hp := hlog ev hev
    rw [hp] at hkk
    exact (Option.some_inj.mp hkk).symm
  · subst hEq
    intro ev hev kk hkk
    simp at hev
    subst hev
    simp [logKey] at hkk

/-! ### Properties of a whole diff pass -/

theorem diffEntries_spec {E : ExtLib} {idx : Index} {packages : String}
    {pkgs : Snapshot} :
    ∀ {cur : Snapshot} {r : PassResult},
    diffEntries E idx packages pkgs cur = .ok r →
    (r.pkgs.map Prod.fst = cur.map Prod.fst) ∧
    (∀ p ∈ r.pkgs, p ∈ cur ∨ ∃ d, pkgs.lookup d = some p.2) ∧
    (r.hasChange = true ↔ ∃ n a b, LogEvent.downgrade n a b ∈ r.log) ∧
    (∀ k e, (k, e) ∈ cur → isMetaKey k = true → (k, e) ∈ r.pkgs) ∧
    (∀ k e, (k, e) ∈ cur → isMetaKey k = false →
      ∃ name, extractNameFromDescriptor E e.resolution = .ok name) ∧
    (∀ ev ∈ r.log, ∀ kk, logKey ev = some kk → isMetaKey kk = false) := by
  intro cur
  induction cur with
  | nil =>
    intro r h
    unfold diffEntries at h
    cases h
    refine ⟨rfl, by simp, by simp, by simp, by simp, by simp⟩
  | cons p rest ih =>
    intro r h
    obtain ⟨k0, e0⟩ := p
    unfold diffEntries at h
    split at h
    next hmeta =>
      split at h
      · exact Except.noConfusion h
      next r0 hr0 =>
        cases h
        obtain ⟨ihk, ihv, ihc, ihm, ihn, ihl⟩ := ih hr0
        refine ⟨by simpa using ihk, ?_, by simpa using ihc, ?_, ?_, by simpa using ihl⟩
        · intro q hq
          rcases List.mem_cons.mp hq with rfl | hq2
          · exact Or.inl (List.mem_cons_self _ _)
          · rcases ihv q hq2 with hin | hor
            · exact Or.inl (List.mem_cons_of_mem _ hin)
            · exact Or.inr hor
        · intro k e hke hkm
          rcases List.mem_cons.mp hke with heq | hke2
          · cases heq; exact List.mem_cons_self _ _
          · exact List.mem_cons_of_mem _ (ihm k e hke2 hkm)
        · intro k e hke hkm
          rcases List.mem_cons.mp hke with heq | hke2
          · cases heq
            rw [hmeta] at hkm
            exact Bool.noConfusion hkm
          · exact ihn k e hke2 hkm
    next hmeta =>
      split at h
      · exact Except.noConfusion h
      next er her =>
        split at h
        · exact Except.noConfusion h
        next r0 hr0 =>
          cases h
          obtain ⟨ihk, ihv, ihc, ihm, ihn, ihl⟩ := ih hr0
          have hmetaF : isMetaKey k0 = false := by simpa using hmeta
          refine ⟨by simpa using ihk, ?_, ?_, ?_, ?_, ?_⟩
          · intro q hq
            rcases List.mem_cons.mp hq with rfl | hq2
            · rcases (processEntry_cases her).2 with ⟨hent, _, _⟩ |
                ⟨name, ds, d, origPkg, _, _, _, hlk, _, _, hEq⟩
              · rw [hent]; exact Or.inl (List.mem_cons_self _ _)
              · subst hEq; exact Or.inr ⟨d, hlk⟩
            · rcases ihv q hq2 with hin | hor
              · exact Or.inl (List.mem_cons_of_mem _ hin)
              · exact Or.inr hor
          · simp only [PassResult.hasChange, Bool.or_eq_true]
            rw [processEntry_changed_iff her, ihc]
            constructor
            · rintro (⟨n, a, b, hm1⟩ | ⟨n, a, b, hm1⟩)
              · exact ⟨n, a, b, List.mem_append_left _ hm1⟩
              · exact ⟨n, a, b, List.mem_append_right _ hm1⟩
            · rintro ⟨n, a, b, hm1⟩
              rcases List.mem_append.mp hm1 with hm2 | hm2
              · exact Or.inl ⟨n, a, b, hm2⟩
              · exact Or.inr ⟨n, a, b, hm2⟩
          · intro k e hke hkm
            rcases List.mem_cons.mp hke with heq | hke2
            · cases heq
              rw [hmetaF] at hkm
              exact Bool.noConfusion hkm
            · exact List.mem_cons_of_mem _ (ihm k e hke2 hkm)
          · intro k e hke hkm
            rcases List.mem_cons.mp hke with heq | hke2
            · cases heq
              exact (processEntry_cases her).1
            · exact ihn k e hke2 hkm
          · intro ev hev kk hkk
            rcases List.mem_append.mp hev with hev2 | hev2
            · have := processEntry_log_keys her ev hev2 kk hkk
              subst this
              exact hmetaF
            · exact ihl ev hev2 kk hkk

theorem diffEntries_lookup {E : ExtLib} {idx : Index} {packages : String}
    {pkgs : Snapshot} :
    ∀ {cur : Snapshot} {r : PassResult},
    (cur.map Prod.fst).Nodup →
    diffEntries E idx packages pkgs cur = .ok r →
    ∀ k e, (k, e) ∈ cur → isMetaKey k = false →
    ∃ er, processEntry E idx packages pkgs k e = .ok er ∧
      r.pkgs.lookup k = some er.entry ∧
      (er.changed = true → r.hasChange = true) ∧
      ∀ ev ∈ er.log, ev ∈ r.log := by
  intro cur
  induction cur with
  | nil => intro r _ _ k e hke; simp at hke
  | cons p rest ih =>
    intro r hnd h k e hke hkm
    obtain ⟨k0, e0⟩ := p
    simp only [List.map_cons, List.nodup_cons] at hnd
    unfold diffEntries at h
    split at h
    next hmeta =>
      split at h
      · exact Except.noConfusion h
      next r0 hr0 =>
        cases h
        rcases List.mem_cons.mp hke with heq | hke2
        · cases heq
          rw [hmeta] at hkm
          exact Bool.noConfusion hkm
        · obtain ⟨er, her, hlk, hch, hlg⟩ := ih hnd.2 hr0 k e hke2 hkm
          have hkk0 : k ≠ k0 := by
            rintro rfl
            exact hnd.1 (List.mem_map_of_mem Prod.fst hke2)
          refine ⟨er, her, ?_, hch, hlg⟩
          rw [List.lookup_cons]
          have hb : (k == k0) = false := by simpa using hkk0
          rw [hb]
          exact hlk
    next hmeta =>
      split at h
      · exact Except.noConfusion h
      next er0 her0 =>
        split at h
        · exact Except.noConfusion h
        next r0 hr0 =>
          cases h
          rcases List.mem_cons.mp hke with heq | hke2
          · cases heq
            refine ⟨er0, her0, ?_, ?_, ?_⟩
            · rw [List.lookup_cons, beq_self_eq_true]
            · intro hc; simp [hc]
            · intro ev hev; exact List.mem_append_left _ hev
          · obtain ⟨er, her, hlk, hch, hlg⟩ := ih hnd.2 hr0 k e hke2 hkm
            have hkk0 : k ≠ k0 := by
              rintro rfl
              exact hnd.1 (List.mem_map_of_mem Prod.fst hke2)
            refine ⟨er, her, ?_, ?_, ?_⟩
            · rw [List.lookup_cons]
              have hb : (k == k0) = false := by simpa using hkk0
              rw [hb]
              exact hlk
            · intro hc; simp [hch hc]
            · intro ev hev; exact List.mem_append_right _ (hlg ev hev)

/-! ### The candidate search picks the first satisfying original key -/

theorem findOrig_eq_find {E : ExtLib} {pkgs : Snapshot} {descs : List String} :
    ∀ {ds : List String},
    (∀ d ∈ ds, ∃ oe, pkgs.lookup d = some oe ∧
      ∃ b, allDescsOk E oe.version descs = .ok b) →
    ((ds.find? (candidateOk E pkgs descs) = none ∧
      findOrig E pkgs descs ds = .ok none) ∨
     (∃ d oe, ds.find? (candidateOk E pkgs descs) = some d ∧
       pkgs.lookup d = some oe ∧
       findOrig E pkgs descs ds = .ok (some (d, oe)))) := by
  intro ds
  induction ds with
  | nil => intro _; exact Or.inl ⟨rfl, rfl⟩
  | cons d0 rest ih =>
    intro hwf
    obtain ⟨oe0, hoe0, b0, hb0⟩ := hwf d0 (List.mem_cons_self _ _)
    cases b0 with
    | true =>
      have hc : candidateOk E pkgs descs d0 = true := by
        simp [candidateOk, hoe0, hb0]
      refine Or.inr ⟨d0, oe0, ?_, hoe0, ?_⟩
      · rw [List.find?_cons_of_pos _ hc]
      · simp [findOrig, hoe0, hb0]
    | false =>
      have hc : candidateOk E pkgs descs d0 = false := by
        simp [candidateOk, hoe0, hb0]
      have hrec : findOrig E pkgs descs (d0 :: rest) = findOrig E pkgs descs rest := by
        simp [findOrig, hoe0, hb0]
      have hfind : (d0 :: rest).find? (candidateOk E pkgs descs) =
          rest.find? (candidateOk E pkgs descs) :=
        List.find?_cons_of_neg _ (by simp [hc])
      rw [hrec, hfind]
      exact ih (fun d hd => hwf d (List.mem_cons_of_mem _ hd))

/-! ### Characterisation of the package index -/

theorem getKeys_insertIndex (idx : Index) (n k m : String) :
    getKeys (insertIndex idx n k) m =
      if m = n then getKeys idx m ++ [k] else getKeys idx m := by
  induction idx with
  | nil =>
    unfold insertIndex getKeys
    by_cases hmn : m = n
    · subst hmn
      simp [List.lookup_cons]
    · have hb : (m == n) = false := by simpa using hmn
      simp [List.lookup_cons, hb, hmn]
  | cons p rest ih =>
    obtain ⟨a, ks⟩ := p
    unfold insertIndex
    by_cases han : a = n
    · subst han
      rw [if_pos rfl]
      by_cases hma : m = a
      · subst hma
        simp [getKeys, List.lookup_cons]
      · have hb : (m == a) = false := by simpa using hma
        simp [getKeys, List.lookup_cons, hb, hma]
    · rw [if_neg han]
      by_cases hma : m = a
      · subst hma
        have hmn : ¬m = n := fun hh => han hh
        simp [getKeys, List.lookup_cons, hmn]
      · have hb : (m == a) = false := by simpa using hma
        unfold getKeys
        rw [List.lookup_cons, hb, List.lookup_cons, hb]
        exact ih

theorem buildIndexAux_getKeys {E : ExtLib} :
    ∀ {pkgs : Snapshot} {acc idx : Index},
    buildIndexAux E acc pkgs = .ok idx →
    ∀ m, getKeys idx m = getKeys acc m ++ keysFor E pkgs m := by
  intro pkgs
  induction pkgs with
  | nil =>
    intro acc idx h m
    unfold buildIndexAux at h
    cases h
    simp [keysFor]
  | cons p rest ih =>
    intro acc idx h m
    obtain ⟨k, e⟩ := p
    unfold buildIndexAux at h
    split at h
    next hmeta =>
      rw [ih h m]
      unfold keysFor
      rw [List.filter_cons]
      simp [hmeta]
    next hmeta =>
      split at h
      · exact Except.noConfusion h
      next name hname =>
        rw [ih h m, getKeys_insertIndex]
        have hnm : nameOf E e = some name := by
          unfold nameOf
          rw [hname]
          rfl
        unfold keysFor
        rw [List.filter_cons]
        by_cases hm : m = name
        · subst hm
          simp [hmeta, hnm, List.append_assoc]
        · have hb : (nameOf E e == some m) = false := by
            rw [hnm]
            simpa using fun hh => hm hh.symm
          simp [hmeta, hb, hm]

theorem buildIndex_getKeys {E : ExtLib} {pkgs : Snapshot} {idx : Index}
    (h : buildIndex E pkgs = .ok idx) (m : String) :
    getKeys idx m = keysFor E pkgs m := by
  have hh := buildIndexAux_getKeys h m
  simpa [getKeys] using hh

theorem keysFor_not_meta {E : ExtLib} {pkgs : Snapshot} {m k : String}
    (h : k ∈ keysFor E pkgs m) : isMetaKey k = false := by
  unfold keysFor at h
  obtain ⟨p, hp, rfl⟩ := List.mem_map.mp h
  have := List.mem_filter.mp hp
  simpa using (Bool.and_eq_true _ _ |>.mp this.2).1

/-! ### The convergence loop is bounded -/

theorem upgradeLoop_installs {E : ExtLib} {install : Nat → String → String}
    {idx : Index} {packages : String} {pkgs : Snapshot} :
    ∀ {counter i : Nat} {file fl : String} {n : Nat} {r : FilePassResult},
    upgradeLoop E install idx packages pkgs counter i file = .ok (fl, n, r) →
    n ≤ i + counter + 1 := by
  intro counter
  induction counter with
  | zero =>
    intro i file fl n r h
    unfold upgradeLoop at h
    split at h
    · exact Except.noConfusion h
    next r0 hr0 =>
      cases h
      omega
  | succ c ih =>
    intro i file fl n r h
    unfold upgradeLoop at h
    split at h
    · exact Except.noConfusion h
    next r0 hr0 =>
      split at h
      next =>
        have := ih h
        omega
      next =>
        cases h
        omega

/-! ### Inversion of the file-level pass and of the engine -/

theorem upgradeSelectedPackages_spec {E : ExtLib} {text : String} {idx : Index}
    {packages : String} {pkgs : Snapshot} {fr : FilePassResult}
    (h : upgradeSelectedPackages E text idx packages pkgs = .ok fr) :
    ∃ cur r, E.parseSyml text = some cur ∧
      diffEntries E idx packages pkgs cur = .ok r ∧
      fr = ⟨r.hasChange, r.pkgs, r.log,
        if r.hasChange then some (yarnLockHeader ++ E.stringifySyml r.pkgs) else none⟩ := by
  unfold upgradeSelectedPackages at h
  split at h
  · exact Except.noConfusion h
  next cur hcur =>
    split at h
    · exact Except.noConfusion h
    next r hr =>
      cases h
      exact ⟨cur, r, hcur, hr, rfl⟩

theorem upgradeLock_spec {E : ExtLib} {install : Nat → String → String}
    {immutableOk : String → Bool} {packages initialFile : String}
    {res : UpgradeResult}
    (h : upgradeLock E install immutableOk packages initialFile = .ok res) :
    ∃ pkgs idx,
      E.parseSyml initialFile = some pkgs ∧
      buildIndex E pkgs = .ok idx ∧
      upgradeLoop E install idx packages pkgs MAX_RETRIES 0 initialFile =
        .ok (res.finalFile, res.mutableInstalls, res.lastPass) ∧
      res.stable = immutableOk res.finalFile := by
  unfold upgradeLock at h
  split at h
  · exact Except.noConfusion h
  next pkgs hpkgs =>
    split at h
    · exact Except.noConfusion h
    next idx hidx =>
      split at h
      · exact Except.noConfusion h
      next file n r hloop =>
        cases h
        exact ⟨pkgs, idx, hpkgs, hidx, hloop, rfl⟩

/-! ### A pass of a snapshot against itself with singleton candidate lists -/

theorem processEntry_self_noChange {E : ExtLib} {idx : Index} {packages : String}
    {orig : Snapshot} {k : String} {e : YarnEntry} {er : EntryResult}
    (hnm : ∃ nm, extractNameFromDescriptor E e.resolution = .ok nm ∧
      (E.isMatch nm packages = true ∨
        (idx.lookup nm = some [k] ∧ orig.lookup k = some e)))
    (h : processEntry E idx packages orig k e = .ok er) :
    er.changed = false ∧ er.entry = e := by
  obtain ⟨nm, hx, hcase⟩ := hnm
  unfold processEntry at h
  rw [hx] at h
  rcases hcase with hmatch | ⟨hl, ho⟩
  · rcases hlk : idx.lookup nm with _ | ds
    · simp only [hlk] at h
      cases h
      exact ⟨rfl, rfl⟩
    · simp only [hlk, hmatch] at h
      rw [if_pos trivial] at h
      cases h
      exact ⟨rfl, rfl⟩
  · simp only [hl] at h
    split at h
    · cases h; exact ⟨rfl, rfl⟩
    · rcases hb : allDescsOk E e.version (splitComma k) with msg | b
      · have hfo : findOrig E orig (splitComma k) [k] = .error msg := by
          simp [findOrig, ho, hb]
        rw [hfo] at h
        exact Except.noConfusion h
      · cases b with
        | false =>
          have hfo : findOrig E orig (splitComma k) [k] = .ok none := by
            simp [findOrig, ho, hb]
          rw [hfo] at h
          cases h
          exact ⟨rfl, rfl⟩
        | true =>
          have hfo : findOrig E orig (splitComma k) [k] = .ok (some (k, e)) := by
            simp [findOrig, ho, hb]
          rw [hfo] at h
          have h2 : (if e.version = e.version
              then Except.ok (⟨e, false, []⟩ : EntryResult)
              else Except.ok (⟨e, true,
                [LogEvent.downgrade nm e.version e.version]⟩ : EntryResult)) =
              Except.ok er := h
          rw [if_pos rfl] at h2
          cases h2
          exact ⟨rfl, rfl⟩

theorem diffEntries_self_noChange {E : ExtLib} {idx : Index} {packages : String}
    {orig : Snapshot} :
    ∀ {sub : Snapshot} {r : PassResult},
    (∀ k e, (k, e) ∈ sub → isMetaKey k = false →
      ∃ nm, extractNameFromDescriptor E e.resolution = .ok nm ∧
        (E.isMatch nm packages = true ∨
          (idx.lookup nm = some [k] ∧ orig.lookup k = some e))) →
    diffEntries E idx packages orig sub = .ok r →
    r.hasChange = false := by
  intro sub
  induction sub with
  | nil =>
    intro r _ h
    unfold diffEntries at h
    cases h
    rfl
  | cons p rest ih =>
    intro r hyp h
    obtain ⟨k0, e0⟩ := p
    unfold diffEntries at h
    split at h
    next hmeta =>
      split at h
      · exact Except.noConfusion h
      next r0 hr0 =>
        cases h
        simpa using ih (fun k e hke => hyp k e (List.mem_cons_of_mem _ hke)) hr0
    next hmeta =>
      split at h
      · exact Except.noConfusion h
      next er her =>
        split at h
        · exact Except.noConfusion h
        next r0 hr0 =>
          cases h
          have h0 : r0.hasChange = false :=
            ih (fun k e hke => hyp k e (List.mem_cons_of_mem _ hke)) hr0
          have hc0 : er.changed = false :=
            (processEntry_self_noChange
              (hyp k0 e0 (List.mem_cons_self _ _) (by simpa using hmeta)) her).1
          simp [hc0, h0]

/-! ### One step of the convergence loop when the pass reports no change -/

theorem upgradeLoop_noChange_step (c : Nat) {E : ExtLib} {install : Nat → String → String}
    {idx : Index} {packages : String} {pkgs : Snapshot} {i : Nat} {file : String}
    {fr : FilePassResult}
    (hup : upgradeSelectedPackages E (install i file) idx packages pkgs = .ok fr)
    (hnc : fr.hasChange = false) (hw : fr.written = none) :
    upgradeLoop E install idx packages pkgs (c + 1) i file =
      .ok (install i file, i + 1, fr) := by
  unfold upgradeLoop
  rw [hup]
  simp [hnc, hw]

/-! ### Claim theorems -/

/-- C10: One diff pass preserves the key set of the reloaded current
snapshot exactly — the resulting mapping has the same keys in the same
order, and every value is either the current entry at that key or an entry
of the original snapshot, so a revert only replaces the value at an
existing key and no key is ever added or removed. -/
theorem pass_preserves_keys {E : ExtLib} {origPkgs cur : Snapshot} {idx : Index}
    {packages : String} {r : PassResult}
    (hr : diffEntries E idx packages origPkgs cur = .ok r) :
    r.pkgs.map Prod.fst = cur.map Prod.fst ∧
    ∀ p ∈ r.pkgs, p ∈ cur ∨ ∃ d, origPkgs.lookup d = some p.2 := by
  obtain ⟨hk, hv, _, _, _, _⟩ := diffEntries_spec hr
  exact ⟨hk, hv⟩

/-- C10 witness: the key-set preservation evaluated on the main fixture
pass. -/
theorem pass_preserves_keys_witness :
    rW1.pkgs.map Prod.fst = curW.map Prod.fst ∧
    ∀ p ∈ rW1.pkgs, p ∈ curW ∨ ∃ d, origW.lookup d = some p.2 :=
  pass_preserves_keys (rfl : diffEntries extW idxW "a" origW curW = .ok rW1)

/-- C8: Keys beginning with two underscores are excluded from the package
index built from the original snapshot, and a diff pass carries such
entries through unmodified and never logs any event about their key. -/
theorem metadata_excluded {E : ExtLib} {origPkgs cur : Snapshot} {idx : Index}
    {packages : String} {r : PassResult}
    (hidx : buildIndex E origPkgs = .ok idx)
    (hr : diffEntries E idx packages origPkgs cur = .ok r) :
    (∀ name ks, idx.lookup name = some ks → ∀ k ∈ ks, isMetaKey k = false) ∧
    (∀ k e, (k, e) ∈ cur → isMetaKey k = true →
      (k, e) ∈ r.pkgs ∧ ∀ ev ∈ r.log, logKey ev ≠ some k) := by
  obtain ⟨_, _, _, ihm, _, ihl⟩ := diffEntries_spec hr
  constructor
  · intro name ks hks k hk
    have hg := buildIndex_getKeys hidx name
    unfold getKeys at hg
    rw [hks] at hg
    simp only [Option.getD_some] at hg
    exact keysFor_not_meta (hg ▸ hk)
  · intro k e hke hkm
    refine ⟨ihm k e hke hkm, ?_⟩
    intro ev hev hcon
    have hfalse := ihl ev hev k hcon
    rw [hkm] at hfalse
    exact Bool.noConfusion hfalse

/-- C8 witness: the metadata entry of the main fixture is not indexed and
passes through the first diff pass untouched and unlogged. -/
theorem metadata_excluded_witness :
    ("__metadata", metaE) ∈ rW1.pkgs ∧
    ∀ ev ∈ rW1.log, logKey ev ≠ some "__metadata" :=
  (metadata_excluded (rfl : buildIndex extW origW = .ok idxW)
    (rfl : diffEntries extW idxW "a" origW curW = .ok rW1)).2
    "__metadata" metaE (by simp [curW]) rfl

/-- C9: A current entry whose canonical name is absent from the original
package index is left exactly as the resolver produced it and a new-package
warning is emitted, whatever the pattern is. -/
theorem new_package_untouched {E : ExtLib} {origPkgs cur : Snapshot} {idx : Index}
    {packages : String} {k name : String} {e : YarnEntry} {r : PassResult}
    (hnd : (cur.map Prod.fst).Nodup)
    (hmem : (k, e) ∈ cur)
    (hmeta : isMetaKey k = false)
    (hname : extractNameFromDescriptor E e.resolution = .ok name)
    (habs : idx.lookup name = none)
    (hr : diffEntries E idx packages origPkgs cur = .ok r) :
    r.pkgs.lookup k = some e ∧ LogEvent.newPackage k ∈ r.log := by
  obtain ⟨er, her, hlk, _, hlg⟩ := diffEntries_lookup hnd hr k e hmem hmeta
  have hpe : processEntry E idx packages origPkgs k e = .ok ⟨e, false, [.newPackage k]⟩ := by
    simp [processEntry, hname, habs]
  rw [her] at hpe
  injection hpe with h3
  subst h3
  exact ⟨by simpa using hlk, hlg _ (by simp)⟩

/-- C9 witness: the newly introduced package c of the main fixture is kept
as resolved and warned about. -/
theorem new_package_untouched_witness :
    rW1.pkgs.lookup "c@npm:^3.0.0" = some cE ∧
    LogEvent.newPackage "c@npm:^3.0.0" ∈ rW1.log :=
  new_package_untouched (by decide)
    (by simp [curW])
    rfl
    (rfl : extractNameFromDescriptor extW cE.resolution = Except.ok "c")
    (rfl : List.lookup "c" idxW = none)
    (rfl : diffEntries extW idxW "a" origW curW = .ok rW1)

/-- C5 (amended): A resolution string that cannot be decomposed does not
lead to a skipped entry — the thrown parse error aborts the whole pass, so
a pass that returns at all has successfully decomposed the resolution of
every non-metadata entry it visited. -/
theorem descriptor_error_aborts {E : ExtLib} {origPkgs cur : Snapshot} {idx : Index}
    {packages : String} {r : PassResult}
    (hr : diffEntries E idx packages origPkgs cur = .ok r) :
    ∀ k e, (k, e) ∈ cur → isMetaKey k = false →
      ∃ name, extractNameFromDescriptor E e.resolution = .ok name :=
  (diffEntries_spec hr).2.2.2.2.1

/-- C5 counterexample: on a snapshot whose first entry has an
undecomposable resolution, the diff pass aborts with the parse error
instead of skipping that entry with a warning and continuing — no pass
result exists even though the following entry is well-formed. -/
theorem descriptor_error_skip_counterexample :
    diffEntries extW idxW "a" origW curBad = .error "Invalid descriptor" ∧
    extractNameFromDescriptor extW yE.resolution = .ok "y" ∧
    ∀ r, ¬(diffEntries extW idxW "a" origW curBad = .ok r) := by
  refine ⟨rfl, rfl, ?_⟩
  intro r h
  rw [(rfl : diffEntries extW idxW "a" origW curBad = .error "Invalid descriptor")] at h
  exact Except.noConfusion h

/-- C5 witness: the amended claim applied to the successful main fixture
pass at entry b. -/
theorem descriptor_error_aborts_witness :
    ∃ name, extractNameFromDescriptor extW bE2.resolution = .ok name :=
  descriptor_error_aborts (rfl : diffEntries extW idxW "a" origW curW = .ok rW1)
    "b@npm:^2.0.0" bE2 (by simp [curW]) rfl

/-- C7: The file-level pass persists the lockfile exactly when the pass
recorded at least one downgrade, every persisted text is the fixed
two-line banner followed by the serialized mapping, and when nothing was
downgraded no write happens. -/
theorem rewrite_iff_change {E : ExtLib} {text : String} {idx : Index}
    {packages : String} {pkgs : Snapshot} {fr : FilePassResult}
    (h : upgradeSelectedPackages E text idx packages pkgs = .ok fr) :
    (fr.written = none ↔ fr.hasChange = false) ∧
    (∀ s, fr.written = some s → s = yarnLockHeader ++ E.stringifySyml fr.pkgs) ∧
    (fr.hasChange = true ↔ ∃ n a b, LogEvent.downgrade n a b ∈ fr.log) := by
  obtain ⟨cur, r, hcur, hdiff, hfr⟩ := upgradeSelectedPackages_spec h
  obtain ⟨_, _, hch, _, _, _⟩ := diffEntries_spec hdiff
  subst hfr
  cases hhc : r.hasChange with
  | false =>
    refine ⟨by simp, by simp, ?_⟩
    constructor
    · intro hcon
      simp at hcon
    · intro hex
      have h2 := hch.mpr hex
      rw [hhc] at h2
      exact Bool.noConfusion h2
  | true =>
    refine ⟨by simp, ?_, ?_⟩
    · intro s hs
      simp at hs ⊢
      exact hs.symm
    · constructor
      · intro _
        exact hch.mp hhc
      · intro _
        simp

/-- C7 witness: the write behaviour of the first file-level pass of the
main fixture. -/
theorem rewrite_iff_change_witness :
    (frW1.written = none ↔ frW1.hasChange = false) ∧
    (∀ s, frW1.written = some s → s = yarnLockHeader ++ extW.stringifySyml frW1.pkgs) ∧
    (frW1.hasChange = true ↔ ∃ n a b, LogEvent.downgrade n a b ∈ frW1.log) :=
  rewrite_iff_change (rfl : upgradeSelectedPackages extW "lock1" idxW "a" origW = .ok frW1)

/-- C1: Scope invariant of the revert logic, holding in every diff pass and
hence in the pass whose mapping becomes the final lockfile: an out-of-pattern
entry whose canonical name existed in the original index and for which some
original key under that name satisfies all of its descriptors ends the pass
with the version of the first such satisfying original entry, while an entry
whose canonical name matches the pattern is never touched by the revert
logic. -/
theorem scope_invariant_pass {E : ExtLib} {origPkgs cur : Snapshot} {idx : Index}
    {packages : String} {k name : String} {e : YarnEntry} {r : PassResult}
    (hnd : (cur.map Prod.fst).Nodup)
    (hmem : (k, e) ∈ cur)
    (hmeta : isMetaKey k = false)
    (hname : extractNameFromDescriptor E e.resolution = .ok name)
    (hr : diffEntries E idx packages origPkgs cur = .ok r) :
    (∀ ds d oe, idx.lookup name = some ds →
      E.isMatch name packages = false →
      findOrig E origPkgs (splitComma k) ds = .ok (some (d, oe)) →
      ∃ e2, r.pkgs.lookup k = some e2 ∧ e2.version = oe.version) ∧
    (∀ ds, idx.lookup name = some ds →
      E.isMatch name packages = true →
      r.pkgs.lookup k = some e) := by
  obtain ⟨er, her, hlk, _, _⟩ := diffEntries_lookup hnd hr k e hmem hmeta
  constructor
  · intro ds d oe hds hpat hfo
    by_cases hv : oe.version = e.version
    · have hpe : processEntry E idx packages origPkgs k e = .ok ⟨e, false, []⟩ := by
        simp [processEntry, hname, hds, hpat, hfo, hv]
      rw [her] at hpe
      injection hpe with h3
      subst h3
      exact ⟨e, by simpa using hlk, hv.symm⟩
    · have hpe : processEntry E idx packages origPkgs k e =
          .ok ⟨oe, true, [.downgrade name e.version oe.version]⟩ := by
        simp [processEntry, hname, hds, hpat, hfo, hv]
      rw [her] at hpe
      injection hpe with h3
      subst h3
      exact ⟨oe, by simpa using hlk, rfl⟩
  · intro ds hds hpat
    have hpe : processEntry E idx packages origPkgs k e = .ok ⟨e, false, [.ignoring k]⟩ := by
      simp [processEntry, hname, hds, hpat]
    rw [her] at hpe
    injection hpe with h3
    subst h3
    simpa using hlk

/-- C1 witness: in the main fixture pass the out-of-pattern package b ends
at its original version while the in-scope package a keeps its bump. -/
theorem scope_invariant_pass_witness :
    (∃ e2, rW1.pkgs.lookup "b@npm:^2.0.0" = some e2 ∧ e2.version = bE1.version) ∧
    rW1.pkgs.lookup "a@npm:^1.0.0" = some aE2 := by
  constructor
  · exact (scope_invariant_pass (by decide)
      (by simp [curW] : ("b@npm:^2.0.0", bE2) ∈ curW)
      (rfl : isMetaKey "b@npm:^2.0.0" = false)
      (rfl : extractNameFromDescriptor extW bE2.resolution = Except.ok "b")
      (rfl : diffEntries extW idxW "a" origW curW = .ok rW1)).1
      ["b@npm:^2.0.0"] "b@npm:^2.0.0" bE1 rfl rfl rfl
  · exact (scope_invariant_pass (by decide)
      (by simp [curW] : ("a@npm:^1.0.0", aE2) ∈ curW)
      (rfl : isMetaKey "a@npm:^1.0.0" = false)
      (rfl : extractNameFromDescriptor extW aE2.resolution = Except.ok "a")
      (rfl : diffEntries extW idxW "a" origW curW = .ok rW1)).2
      ["a@npm:^1.0.0"] rfl rfl

/-- C2: For an out-of-pattern, pre-existing current entry the diff step
walks the original keys indexed under the name in index-insertion order
(which is original snapshot order), selects the first key whose entry
version satisfies the range of every comma-separated descriptor of the
current key, replaces the entry and records a change when that version
differs, leaves everything unchanged when the versions are equal, and emits
a no-match warning leaving the entry as-is when no original key satisfies
all descriptors. -/
theorem diff_first_match_spec {E : ExtLib} {origPkgs cur : Snapshot} {idx : Index}
    {packages : String} {k name : String} {e : YarnEntry} {ds : List String}
    {r : PassResult}
    (hnd : (cur.map Prod.fst).Nodup)
    (hidx : buildIndex E origPkgs = .ok idx)
    (hmem : (k, e) ∈ cur)
    (hmeta : isMetaKey k = false)
    (hname : extractNameFromDescriptor E e.resolution = .ok name)
    (hds : idx.lookup name = some ds)
    (hpat : E.isMatch name packages = false)
    (hwf : ∀ d ∈ ds, ∃ oe, origPkgs.lookup d = some oe ∧
      ∃ b, allDescsOk E oe.version (splitComma k) = .ok b)
    (hr : diffEntries E idx packages origPkgs cur = .ok r) :
    ds = keysFor E origPkgs name ∧
    (ds.find? (candidateOk E origPkgs (splitComma k)) = none →
      r.pkgs.lookup k = some e ∧ LogEvent.noMatch k ∈ r.log) ∧
    (∀ d oe, ds.find? (candidateOk E origPkgs (splitComma k)) = some d →
      origPkgs.lookup d = some oe →
      (oe.version = e.version →
        r.pkgs.lookup k = some e ∧
        processEntry E idx packages origPkgs k e = .ok ⟨e, false, []⟩) ∧
      (oe.version ≠ e.version →
        r.pkgs.lookup k = some oe ∧ r.hasChange = true ∧
        LogEvent.downgrade name e.version oe.version ∈ r.log)) := by
  obtain ⟨er, her, hlk, hch, hlg⟩ := diffEntries_lookup hnd hr k e hmem hmeta
  have hkf : ds = keysFor E origPkgs name := by
    have hg := buildIndex_getKeys hidx name
    unfold getKeys at hg
    rw [hds] at hg
    simpa using hg
  refine ⟨hkf, ?_, ?_⟩
  · intro hfnone
    rcases findOrig_eq_find hwf with ⟨_, hfo⟩ | ⟨d, oe, hf2, _, _⟩
    · have hpe : processEntry E idx packages origPkgs k e = .ok ⟨e, false, [.noMatch k]⟩ := by
        simp [processEntry, hname, hds, hpat, hfo]
      have hpe2 := hpe
      rw [her] at hpe2
      injection hpe2 with h3
      subst h3
      exact ⟨by simpa using hlk, hlg _ (by simp)⟩
    · rw [hfnone] at hf2
      exact Option.noConfusion hf2
  · intro d oe hfsome hlkoe
    rcases findOrig_eq_find hwf with ⟨hf2, _⟩ | ⟨d2, oe2, hf2, hlk2, hfo⟩
    · rw [hfsome] at hf2
      exact Option.noConfusion hf2
    · have hdd : d2 = d := by
        have h4 := hfsome.symm.trans hf2
        exact (Option.some_inj.mp h4).symm
      subst hdd
      have hoe : oe2 = oe := by
        have h4 := hlk2.symm.trans hlkoe
        exact Option.some_inj.mp h4
      subst hoe
      constructor
      · intro hv
        have hpe : processEntry E idx packages origPkgs k e = .ok ⟨e, false, []⟩ := by
          simp [processEntry, hname, hds, hpat, hfo, hv]
        have hpe2 := hpe
        rw [her] at hpe2
        injection hpe2 with h3
        subst h3
        exact ⟨by simpa using hlk, hpe⟩
      · intro hv
        have hpe : processEntry E idx packages origPkgs k e =
            .ok ⟨oe2, true, [.downgrade name e.version oe2.version]⟩ := by
          simp [processEntry, hname, hds, hpat, hfo, hv]
        have hpe2 := hpe
        rw [her] at hpe2
        injection hpe2 with h3
        subst h3
        exact ⟨by simpa using hlk, hch rfl, hlg _ (by simp)⟩

/-- C2 witness: in the main fixture, key b@npm:^2.0.0 is reverted to the
first (only) satisfying original key under b, a change is recorded and the
downgrade is logged. -/
theorem diff_first_match_spec_witness :
    rW1.pkgs.lookup "b@npm:^2.0.0" = some bE1 ∧ rW1.hasChange = true ∧
    LogEvent.downgrade "b" "2.1.0" "2.0.0" ∈ rW1.log := by
  have h := diff_first_match_spec (by decide)
    (rfl : buildIndex extW origW = .ok idxW)
    (by simp [curW] : ("b@npm:^2.0.0", bE2) ∈ curW)
    (rfl : isMetaKey "b@npm:^2.0.0" = false)
    (rfl : extractNameFromDescriptor extW bE2.resolution = Except.ok "b")
    (rfl : List.lookup "b" idxW = some ["b@npm:^2.0.0"])
    (rfl : extW.isMatch "b" "a" = false)
    (by
      intro d hd
      simp at hd
      subst hd
      exact ⟨bE1, rfl, true, rfl⟩)
    (rfl : diffEntries extW idxW "a" origW curW = .ok rW1)
  have h2 := (h.2.2 "b@npm:^2.0.0" bE1 rfl rfl).2 (by decide)
  exact ⟨h2.1, h2.2.1, h2.2.2⟩

/-- C4: Whatever the external resolver does — including reintroducing an
out-of-pattern bump on every pass — a run that finishes without a parse
error performed at most MAX_RETRIES + 1 mutable-mode resolves (the initial
one plus the retry budget of 5) and then submitted the final file to the
immutable-mode stability check; termination itself is intrinsic because
the loop is a total function of the decreasing counter. -/
theorem upgradeLock_bounded_retries {E : ExtLib} {install : Nat → String → String}
    {immutableOk : String → Bool} {packages initialFile : String} {res : UpgradeResult}
    (h : upgradeLock E install immutableOk packages initialFile = .ok res) :
    res.mutableInstalls ≤ MAX_RETRIES + 1 ∧
    res.stable = immutableOk res.finalFile := by
  obtain ⟨pkgs, idx, _, _, hloop, hstb⟩ := upgradeLock_spec h
  refine ⟨?_, hstb⟩
  have hb := upgradeLoop_installs hloop
  omega

/-- C4 witness: with a resolver that reintroduces the out-of-pattern bump on
every call, the engine stops after exactly MAX_RETRIES + 1 mutable resolves
and reaches the (failing) stability check. -/
theorem upgradeLock_bounded_retries_witness :
    (∃ res, upgradeLock ext4 install4 immut4 "a" "lock4" = .ok res ∧
      res.mutableInstalls = MAX_RETRIES + 1) ∧
    res4.mutableInstalls ≤ MAX_RETRIES + 1 ∧
    res4.stable = immut4 res4.finalFile := by
  refine ⟨⟨res4, rfl, rfl⟩, ?_⟩
  exact upgradeLock_bounded_retries (rfl : upgradeLock ext4 install4 immut4 "a" "lock4" = .ok res4)

/-- The contract fixture satisfies the validRange contract the specification
assigns to the external semver library. -/
theorem ext3_validRange_contract :
    ∀ s, jsTruthy (ext3.validRange s) = false ↔ (s = "" ∨ ¬ ValidR3 s) := by
  intro s
  by_cases h : s = "" ∨ s = "###"
  · constructor
    · intro _
      exact Or.inr (not_not_intro h)
    · intro _
      simp [ext3, jsTruthy, h]
  · push_neg at h
    constructor
    · intro hcon
      simp [ext3, jsTruthy, h.1, h.2] at hcon
    · rintro (h1 | h1)
      · exact absurd h1 h.1
      · exact absurd (fun hh => hh.elim h.1 h.2) h1

/-- The contract fixture satisfies the satisfaction contract the
specification assigns to the external semver library. -/
theorem ext3_satisfies_contract :
    ∀ v s, ext3.satisfies v s = true ↔ StdSat3 v s := by
  intro v s
  simp [ext3, StdSat3]

/-- C3: Given that the truthiness of the external validRange result captures
the property that the declared range is empty or not a syntactically valid
semantic-version range, and that the external satisfies function decides
standard semantic-versioning range satisfaction, the constraint check of
upgradeSelectedPackages returns true exactly when the range is empty or not
syntactically valid or the original version satisfies it; in particular an
unparseable range never blocks a revert. -/
theorem constraint_satisfier_spec (E : ExtLib) (ValidR : String → Prop)
    (StdSat : String → String → Prop)
    (hv : ∀ s, jsTruthy (E.validRange s) = false ↔ (s = "" ∨ ¬ ValidR s))
    (hs : ∀ v s, E.satisfies v s = true ↔ StdSat v s)
    (v s : String) :
    (satCheck E v s = true ↔ (s = "" ∨ ¬ ValidR s ∨ StdSat v s)) ∧
    (¬ ValidR s → satCheck E v s = true) := by
  have hmain : satCheck E v s = true ↔ (s = "" ∨ ¬ ValidR s ∨ StdSat v s) := by
    unfold satCheck
    cases hjt : jsTruthy (E.validRange s) with
    | false =>
      simp only [hjt, Bool.not_false, Bool.true_or]
      constructor
      · intro _
        rcases (hv s).mp hjt with h1 | h1
        · exact Or.inl h1
        · exact Or.inr (Or.inl h1)
      · intro _
        trivial
    | true =>
      simp only [hjt, Bool.not_true, Bool.false_or]
      have hnot : ¬(s = "" ∨ ¬ ValidR s) := by
        intro hcon
        have h2 := (hv s).mpr hcon
        rw [hjt] at h2
        exact Bool.noConfusion h2
      push_neg at hnot
      rw [hs]
      constructor
      · intro hstd
        exact Or.inr (Or.inr hstd)
      · rintro (h1 | h1 | h1)
        · exact absurd h1 hnot.1
        · exact absurd hnot.2 h1
        · exact h1
  exact ⟨hmain, fun hnv => hmain.mpr (Or.inr (Or.inl hnv))⟩

/-- C3 witness: in the contract fixture the marker string is not a valid
range, and the check accepts it, so the unparseable range does not block a
revert. -/
theorem constraint_satisfier_spec_witness :
    satCheck ext3 "1.0.0" "###" = true ∧ ¬ ValidR3 "###" := by
  have h := (constraint_satisfier_spec ext3 ValidR3 StdSat3 ext3_validRange_contract
    ext3_satisfies_contract "1.0.0" "###").2
  have hnv : ¬ ValidR3 "###" := by
    unfold ValidR3
    simp
  exact ⟨h hnv, hnv⟩

/-- C6 (amended): Once a run completes successfully, re-running the
identical operation with a resolver idempotent on the resulting lockfile
performs zero reverts in its first diff pass and passes the immutable-mode
check on the first pass, provided every out-of-pattern canonical name has a
single entry in that lockfile (each non-metadata key either has a
pattern-matching canonical name — such entries are never touched by the
revert logic — or is the only key the rebuilt index associates with its
name); with several entries under one out-of-pattern name the first pass
may revert, as the counterexample shows. -/
theorem rerun_noChange_of_singletons {E : ExtLib}
    {install install2 : Nat → String → String} {immutableOk : String → Bool}
    {packages file0 : String} {res : UpgradeResult} {cur : Snapshot} {idx : Index}
    {r : PassResult}
    (h1 : upgradeLock E install immutableOk packages file0 = .ok res)
    (hst : res.stable = true)
    (hid : install2 0 res.finalFile = res.finalFile)
    (hparse : E.parseSyml res.finalFile = some cur)
    (hidx : buildIndex E cur = .ok idx)
    (hsingle : ∀ k e, (k, e) ∈ cur → isMetaKey k = false →
      ∃ nm, extractNameFromDescriptor E e.resolution = .ok nm ∧
        (E.isMatch nm packages = true ∨
          (idx.lookup nm = some [k] ∧ cur.lookup k = some e)))
    (hpass : diffEntries E idx packages cur cur = .ok r) :
    r.hasChange = false ∧
    upgradeLock E install2 immutableOk packages res.finalFile =
      .ok ⟨res.finalFile, 1, ⟨false, r.pkgs, r.log, none⟩, true⟩ := by
  have hnc : r.hasChange = false := diffEntries_self_noChange hsingle hpass
  have hup : upgradeSelectedPackages E res.finalFile idx packages cur =
      .ok ⟨false, r.pkgs, r.log, none⟩ := by
    simp [upgradeSelectedPackages, hparse, hpass, hnc]
  have hup2 : upgradeSelectedPackages E (install2 0 res.finalFile) idx packages cur =
      .ok ⟨false, r.pkgs, r.log, none⟩ := by
    rw [hid]
    exact hup
  have hstep := upgradeLoop_noChange_step (MAX_RETRIES - 1) hup2 rfl rfl
  rw [hid] at hstep
  have h5 : MAX_RETRIES - 1 + 1 = MAX_RETRIES := rfl
  have hstb : immutableOk res.finalFile = true := by
    obtain ⟨_, _, _, _, _, hs⟩ := upgradeLock_spec h1
    rw [← hs]
    exact hst
  refine ⟨hnc, ?_⟩
  have hloop : upgradeLoop E install2 idx packages cur MAX_RETRIES 0 res.finalFile =
      .ok (res.finalFile, 1, ⟨false, r.pkgs, r.log, none⟩) := by
    rw [← h5]
    exact hstep
  simp [upgradeLock, hparse, hidx, hloop, hstb]

/-- C6 counterexample: a run that completes successfully and stably, whose
resolver is idempotent on the resulting lockfile, and whose identical rerun
nevertheless performs a revert in its very first diff pass, because the
resulting lockfile holds two entries of the one out-of-pattern name c and
the first satisfying original key wins with a different version. -/
theorem rerun_revert_counterexample :
    (upgradeLock ext6 install6 immutW "x" "F0" = .ok res6 ∧ res6.stable = true ∧
      install6 0 res6.finalFile = res6.finalFile) ∧
    (ext6.parseSyml res6.finalFile = some cur6 ∧ buildIndex ext6 cur6 = .ok idx6 ∧
      diffEntries ext6 idx6 "x" cur6 cur6 = .ok r6 ∧ r6.hasChange = true) :=
  ⟨⟨rfl, rfl, rfl⟩, rfl, rfl, rfl, rfl⟩

/-- C6 witness: the amended claim applied to the stable main fixture, whose
three package names each own a single key — the rerun performs one mutable
resolve, zero reverts, and passes the stability check. -/
theorem rerun_noChange_of_singletons_witness :
    rW3.hasChange = false ∧
    upgradeLock extW installW immutW "a" resW.finalFile =
      .ok ⟨resW.finalFile, 1, ⟨false, rW3.pkgs, rW3.log, none⟩, true⟩ := by
  refine rerun_noChange_of_singletons
    (rfl : upgradeLock extW installW immutW "a" "lock0" = .ok resW)
    rfl rfl
    (rfl : extW.parseSyml resW.finalFile = some stableW)
    (rfl : buildIndex extW stableW = .ok idx2W)
    ?_
    (rfl : diffEntries extW idx2W "a" stableW stableW = .ok rW3)
  intro k e hke hkm
  simp only [stableW, List.mem_cons, List.not_mem_nil, or_false, Prod.mk.injEq] at hke
  rcases hke with ⟨rfl, rfl⟩ | ⟨rfl, rfl⟩ | ⟨rfl, rfl⟩ | ⟨rfl, rfl⟩
  · exact absurd hkm (by decide)
  · exact ⟨"a", rfl, Or.inl rfl⟩
  · exact ⟨"b", rfl, Or.inr ⟨rfl, rfl⟩⟩
  · exact ⟨"c", rfl, Or.inr ⟨rfl, rfl⟩⟩
